import Mathlib

/- Verification development for the radial label-placement core of
`src/bin/square_ring.rs` (repository `bevy_debris`).

The core is `arrange_targets`, a greedy assignment of points of interest
(POIs) to concentric rings, together with the pure geometry functions
`ring_radius` and `min_angle`.  We embed it shallowly over `ℝ`:

* `f32` values become real numbers (`OrderedFloat<f32>` keys become `ℝ`);
* the `BTreeMap<OrderedFloat<f32>, Target>` of each ring becomes an
  association list sorted strictly by key, with `succ?`/`pred?` modelling
  `range(t..).next()` / `range(..t).next_back()`, `List.head?` modelling
  `keys().next()` and `List.getLast?` modelling `keys().next_back()`;
* the per-POI `loop` over `ring_ord`, which either finds a conflict and
  moves to the next ring or inserts and breaks, and which pushes one fresh
  empty ring when `ring_ord` reaches `rings.len()`, becomes the structural
  recursion `place` over the suffix of the ring list (an empty suffix is
  the push-new-ring case: the freshly pushed ring is empty, so the POI is
  inserted unconditionally there). -/

open Real

noncomputable section

namespace SquareRing

/-- The `Target` struct of `square_ring.rs`: an id, a label text, an azimuth
angle in radians and a radial distance. -/
structure Target where
  id : Int
  text : String
  azimuth : ℝ
  dist : ℝ

/-- The constant `SCATTER_COEF: f32 = 1.2` from `min_angle`. -/
def SCATTER_COEF : ℝ := 1.2

/-- The constant `std::f32::consts::FRAC_1_SQRT_2`, i.e. `1/√2`. -/
def FRAC_1_SQRT_2 : ℝ := (Real.sqrt 2)⁻¹

/-- The value `PI * 2.0` used for the circular wrap-around comparisons. -/
def TWO_PI : ℝ := Real.pi * 2

/-- `fn ring_radius(poi_width: f32, ring_ord: usize) -> f32 {
  (ring_ord + 1) as f32 * poi_width * 2.0 }` -/
def ring_radius (poi_width : ℝ) (ring_ord : ℕ) : ℝ :=
  ((ring_ord : ℝ) + 1) * poi_width * 2

/-- `fn min_angle(poi_width: f32, ring_ord: usize) -> f32 {
  (poi_width * FRAC_1_SQRT_2 / r).asin() * 2.0 * SCATTER_COEF }`
where `r = ring_radius(poi_width, ring_ord)`. -/
def min_angle (poi_width : ℝ) (ring_ord : ℕ) : ℝ :=
  Real.arcsin (poi_width * FRAC_1_SQRT_2 / ring_radius poi_width ring_ord)
    * 2 * SCATTER_COEF

/-- One ring's members: the `BTreeMap<OrderedFloat<f32>, Target>` modelled as
an association list kept sorted strictly ascending by key. -/
abbrev Ring := List (ℝ × Target)

/-- The key list of a ring, ascending (model of `ring.keys()`). -/
def keys (r : Ring) : List ℝ := r.map Prod.fst

/-- The ring's entries are strictly sorted by key, as in a `BTreeMap`. -/
def sortedRing (r : Ring) : Prop := r.Pairwise fun p q => p.1 < q.1

/-- Model of `ring.range(OrderedFloat(t)..).next()`: the first entry (in
ascending key order) whose key is `≥ t`. -/
def succ? : Ring → ℝ → Option (ℝ × Target)
  | [], _ => none
  | p :: r, t => if t ≤ p.1 then some p else succ? r t

/-- Model of `ring.range(..OrderedFloat(t)).next_back()`: the last entry (in
ascending key order) whose key is `< t`. -/
def pred? : Ring → ℝ → Option (ℝ × Target)
  | [], _ => none
  | p :: r, t =>
    match pred? r t with
    | some q => some q
    | none => if p.1 < t then some p else none

/-- Model of `BTreeMap::insert`: insert keeping ascending key order; on an
equal key the stored key is kept and the value is replaced. -/
def btreeInsert : Ring → ℝ → Target → Ring
  | [], k, v => [(k, v)]
  | p :: r, k, v =>
    if k < p.1 then (k, v) :: p :: r
    else if p.1 < k then p :: btreeInsert r k v
    else (p.1, v) :: r

/-- The successor half of the conflict test in `arrange_targets` (lines
181-201): if some entry has key `≥ t` the direct gap `azi - t` is compared
with `min_azi`; otherwise the smallest stored key wraps around and
`smallest + 2π - t` is compared.  (The `unwrap` on the smallest key is only
reached with a non-empty ring; the impossible empty case is `False`.) -/
def succConflict (r : Ring) (t m : ℝ) : Prop :=
  match succ? r t with
  | some p => p.1 - t < m
  | none =>
    match r.head? with
    | some p => p.1 + TWO_PI - t < m
    | none => False

/-- The predecessor half of the conflict test in `arrange_targets` (lines
202-222): if some entry has key `< t` the direct gap `t - azi` is compared
with `min_azi`; otherwise the largest stored key wraps around and
`t + 2π - largest` is compared. -/
def predConflict (r : Ring) (t m : ℝ) : Prop :=
  match pred? r t with
  | some p => t - p.1 < m
  | none =>
    match r.getLast? with
    | some p => t + TWO_PI - p.1 < m
    | none => False

/-- The whole conflict test of one loop iteration of `arrange_targets`: the
checks run only when `ring.len() > 0`, and the iteration moves on to the next
ring exactly when the successor check or the predecessor check reports an
overlap. -/
def hasConflict (r : Ring) (t m : ℝ) : Prop :=
  r ≠ [] ∧ (succConflict r t m ∨ predConflict r t m)

open scoped Classical in
/-- The placement loop of `arrange_targets` for one target `t`, processing
the rings from index `ring_ord` upward: on a conflict the loop continues with
the next ring; otherwise `t` is inserted and the loop breaks.  When the ring
list is exhausted (`rings.len() == ring_ord`) the source pushes one fresh
empty `BTreeMap`, whose `len() > 0` guard then fails, so `t` is inserted into
it unconditionally. -/
def place (minAzi : ℕ → ℝ) (t : Target) : ℕ → List Ring → List Ring
  | _, [] => [btreeInsert [] t.azimuth t]
  | ring_ord, r :: rest =>
    if hasConflict r t.azimuth (minAzi ring_ord) then
      r :: place minAzi t (ring_ord + 1) rest
    else
      btreeInsert r t.azimuth t :: rest

/-- `fn arrange_targets(targets: &[Target], poi_width: f32)
  -> Vec<BTreeMap<OrderedFloat<f32>, Target>>`: starting from an empty ring
list, each target in input order runs the placement loop from ring 0. -/
def arrange_targets (targets : List Target) (poi_width : ℝ) : List Ring :=
  targets.foldl (fun rings t => place (min_angle poi_width) t 0 rings) []

open scoped Classical in
/-- Fuel-counted version of the placement loop: `fuel` bounds the number of
loop iterations still allowed, and `none` means the bound was exhausted. -/
def placeN (minAzi : ℕ → ℝ) (t : Target) : ℕ → ℕ → List Ring → Option (List Ring)
  | 0, _, _ => none
  | _ + 1, _, [] => some [btreeInsert [] t.azimuth t]
  | fuel + 1, ring_ord, r :: rest =>
    if hasConflict r t.azimuth (minAzi ring_ord) then
      (placeN minAzi t fuel (ring_ord + 1) rest).map (r :: ·)
    else
      some (btreeInsert r t.azimuth t :: rest)

/-- The circular angular distance between two azimuths: the minimum of the
direct gap and the wrap-around gap through `0 / 2π`. -/
def circDist (x y : ℝ) : ℝ := min |x - y| (TWO_PI - |x - y|)

/-- All the targets stored in a ring list, in storage order. -/
def allMembers (rings : List Ring) : List Target :=
  rings.flatMap fun r => r.map Prod.snd

/-- A first sample target at azimuth `0`, for concrete instantiations. -/
def tgtA : Target := ⟨0, "A", 0, 1⟩

/-- A second sample target at azimuth `π`, for concrete instantiations. -/
def tgtB : Target := ⟨1, "B", Real.pi, 2⟩

/-- No-overlap property of a single ring for separation angle `m`: any two
distinct keys are at least `m` apart both directly and through wrap-around. -/
def noOverlap (m : ℝ) (r : Ring) : Prop :=
  ∀ x ∈ keys r, ∀ y ∈ keys r, x < y → m ≤ y - x ∧ m ≤ x + TWO_PI - y

/-- Invariant of a ring-list suffix whose first element has ring index `i`:
every ring is sorted and satisfies `noOverlap` for its own separation
angle. -/
def ringsInv (minAzi : ℕ → ℝ) : ℕ → List Ring → Prop
  | _, [] => True
  | i, r :: rest => (sortedRing r ∧ noOverlap (minAzi i) r) ∧ ringsInv minAzi (i + 1) rest

/-! ### Ring geometry -/

lemma one_lt_sqrt_two : 1 < Real.sqrt 2 :=
  (Real.lt_sqrt (by norm_num)).mpr (by norm_num)

lemma frac_1_sqrt_2_pos : 0 < FRAC_1_SQRT_2 := by
  unfold FRAC_1_SQRT_2
  positivity

lemma frac_1_sqrt_2_lt_one : FRAC_1_SQRT_2 < 1 := by
  unfold FRAC_1_SQRT_2
  rw [inv_lt_one_iff₀]
  exact Or.inr one_lt_sqrt_two

/-- For a positive width, the argument handed to `asin` simplifies to
`(1/√2) / (2 * (ring_ord + 1))`: the width cancels. -/
lemma asin_arg_eq (poi_width : ℝ) (hw : 0 < poi_width) (ring_ord : ℕ) :
    poi_width * FRAC_1_SQRT_2 / ring_radius poi_width ring_ord
      = FRAC_1_SQRT_2 / (2 * ((ring_ord : ℝ) + 1)) := by
  have h1 : ((ring_ord : ℝ) + 1) ≠ 0 := by positivity
  unfold ring_radius
  field_simp
  ring

lemma asin_arg_mem_Icc (ring_ord : ℕ) :
    FRAC_1_SQRT_2 / (2 * ((ring_ord : ℝ) + 1)) ∈ Set.Icc (-1 : ℝ) 1 := by
  have h1 : (0 : ℝ) < 2 * ((ring_ord : ℝ) + 1) := by positivity
  constructor
  · have : 0 < FRAC_1_SQRT_2 / (2 * ((ring_ord : ℝ) + 1)) := by
      exact div_pos frac_1_sqrt_2_pos h1
    linarith
  · rw [div_le_one h1]
    have h2 : (1 : ℝ) ≤ ((ring_ord : ℝ) + 1) := by
      have : (0 : ℝ) ≤ (ring_ord : ℝ) := Nat.cast_nonneg ring_ord
      linarith
    nlinarith [frac_1_sqrt_2_lt_one]

lemma min_angle_pos (poi_width : ℝ) (hw : 0 < poi_width) (ring_ord : ℕ) :
    0 < min_angle poi_width ring_ord := by
  unfold min_angle
  have harg : 0 < poi_width * FRAC_1_SQRT_2 / ring_radius poi_width ring_ord := by
    rw [asin_arg_eq poi_width hw]
    exact div_pos frac_1_sqrt_2_pos (by positivity)
  have h12 : (0 : ℝ) < SCATTER_COEF := by norm_num [SCATTER_COEF]
  exact mul_pos (mul_pos (Real.arcsin_pos.mpr harg) two_pos) h12

/-- C4.  The separation-angle formula of the spec matches the code: the code
multiplies by the constant `FRAC_1_SQRT_2 = 1/√2`, which is division by
`√2`, and the scatter coefficient is the constant `1.2`. -/
theorem min_angle_formula (poi_width : ℝ) (ring_ord : ℕ) :
    min_angle poi_width ring_ord
      = Real.arcsin (poi_width / Real.sqrt 2 / ring_radius poi_width ring_ord)
          * 2 * SCATTER_COEF
    ∧ SCATTER_COEF = 1.2 := by
  constructor
  · rw [min_angle, FRAC_1_SQRT_2, div_eq_mul_inv poi_width (Real.sqrt 2)]
  · rfl

/-- C5.  The ring-radius formula: radius `(ring_ord + 1) * poi_width * 2`,
rings evenly spaced by twice the label width, and (for positive width)
strictly increasing with the ring index, ring 0 innermost. -/
theorem ring_radius_formula (poi_width : ℝ) (hw : 0 < poi_width)
    (i j : ℕ) (hij : i < j) :
    ring_radius poi_width i = ((i : ℝ) + 1) * poi_width * 2 ∧
    ring_radius poi_width (i + 1) - ring_radius poi_width i = poi_width * 2 ∧
    ring_radius poi_width i < ring_radius poi_width j := by
  refine ⟨rfl, ?_, ?_⟩
  · unfold ring_radius
    push_cast
    ring
  · unfold ring_radius
    have h : ((i : ℝ) + 1) < ((j : ℝ) + 1) := by
      have : (i : ℝ) < (j : ℝ) := by exact_mod_cast hij
      linarith
    nlinarith

/-- Witness for C5 at `poi_width = 1`, rings 0 and 1. -/
theorem ring_radius_formula_witness :
    (0 : ℝ) < 1 ∧ 0 < 1 ∧ ring_radius 1 0 < ring_radius 1 1 :=
  ⟨by norm_num, by norm_num, (ring_radius_formula 1 (by norm_num) 0 1 (by norm_num)).2.2⟩

/-- C7.  For a fixed positive width the minimum separation angle strictly
decreases as the ring index grows. -/
theorem min_angle_strict_anti (poi_width : ℝ) (hw : 0 < poi_width)
    (i j : ℕ) (hij : i < j) :
    min_angle poi_width j < min_angle poi_width i := by
  unfold min_angle
  have h12 : (0 : ℝ) < SCATTER_COEF := by norm_num [SCATTER_COEF]
  have harcsin : Real.arcsin (poi_width * FRAC_1_SQRT_2 / ring_radius poi_width j)
      < Real.arcsin (poi_width * FRAC_1_SQRT_2 / ring_radius poi_width i) := by
    rw [asin_arg_eq poi_width hw i, asin_arg_eq poi_width hw j]
    refine Real.strictMonoOn_arcsin (asin_arg_mem_Icc j) (asin_arg_mem_Icc i) ?_
    have hij' : ((i : ℝ) + 1) < ((j : ℝ) + 1) := by
      have : (i : ℝ) < (j : ℝ) := by exact_mod_cast hij
      linarith
    have hi1 : (0 : ℝ) < 2 * ((i : ℝ) + 1) := by positivity
    exact div_lt_div_of_pos_left frac_1_sqrt_2_pos hi1 (by linarith)
  nlinarith

/-- Witness for C7 at `poi_width = 30`, rings 0 and 1. -/
theorem min_angle_strict_anti_witness :
    (0 : ℝ) < 30 ∧ 0 < 1 ∧ min_angle 30 1 < min_angle 30 0 :=
  ⟨by norm_num, by norm_num, min_angle_strict_anti 30 (by norm_num) 0 1 (by norm_num)⟩

/-- C10.  asin-domain safety: for a positive width the argument passed to
`asin` equals `1 / (2√2 (ring_ord + 1))`, is at most `1 / (2√2)`, hence is
strictly below 1, and the resulting separation angle is strictly positive;
the asin domain can never be violated under the code's radius formula. -/
theorem min_angle_asin_domain (poi_width : ℝ) (hw : 0 < poi_width) (ring_ord : ℕ) :
    poi_width * FRAC_1_SQRT_2 / ring_radius poi_width ring_ord
        = 1 / (2 * Real.sqrt 2 * ((ring_ord : ℝ) + 1)) ∧
    poi_width * FRAC_1_SQRT_2 / ring_radius poi_width ring_ord
        ≤ 1 / (2 * Real.sqrt 2) ∧
    poi_width * FRAC_1_SQRT_2 / ring_radius poi_width ring_ord < 1 ∧
    0 < min_angle poi_width ring_ord := by
  have hs : (0 : ℝ) < Real.sqrt 2 := by positivity
  have hn : (1 : ℝ) ≤ ((ring_ord : ℝ) + 1) := by
    have : (0 : ℝ) ≤ (ring_ord : ℝ) := Nat.cast_nonneg ring_ord
    linarith
  have heq : poi_width * FRAC_1_SQRT_2 / ring_radius poi_width ring_ord
      = 1 / (2 * Real.sqrt 2 * ((ring_ord : ℝ) + 1)) := by
    rw [asin_arg_eq poi_width hw, FRAC_1_SQRT_2]
    rw [div_eq_div_iff (by positivity) (by positivity)]
    field_simp
    ring
  refine ⟨heq, ?_, ?_, min_angle_pos poi_width hw ring_ord⟩
  · rw [heq]
    apply one_div_le_one_div_of_le (by positivity)
    nlinarith
  · rw [heq, div_lt_one (by positivity)]
    nlinarith [one_lt_sqrt_two]

/-! ### Ordered ring storage: characterizations of the `BTreeMap` queries -/

lemma mem_keys {r : Ring} {x : ℝ} : x ∈ keys r ↔ ∃ p ∈ r, p.1 = x := by
  simp [keys]

lemma succ?_eq_none {t : ℝ} : ∀ {r : Ring}, (succ? r t = none ↔ ∀ p ∈ r, p.1 < t) := by
  intro r
  induction r with
  | nil => simp [succ?]
  | cons p r ih =>
    by_cases h : t ≤ p.1
    · simp only [succ?, if_pos h, List.forall_mem_cons]
      constructor
      · intro hc
        exact absurd hc (by simp)
      · rintro ⟨h1, -⟩
        linarith
    · simp only [succ?, if_neg h, List.forall_mem_cons, ih]
      constructor
      · intro hall
        exact ⟨not_le.mp h, hall⟩
      · rintro ⟨-, h2⟩
        exact h2

lemma succ?_spec {t : ℝ} {p : ℝ × Target} :
    ∀ {r : Ring}, succ? r t = some p → p ∈ r ∧ t ≤ p.1 := by
  intro r
  induction r with
  | nil => intro h; simp [succ?] at h
  | cons q r ih =>
    intro h
    rw [succ?] at h
    by_cases hq : t ≤ q.1
    · rw [if_pos hq, Option.some.injEq] at h
      subst h
      exact ⟨List.mem_cons_self _ _, hq⟩
    · rw [if_neg hq] at h
      obtain ⟨hm, hle⟩ := ih h
      exact ⟨List.mem_cons_of_mem _ hm, hle⟩

lemma succ?_min {t : ℝ} {p : ℝ × Target} :
    ∀ {r : Ring}, sortedRing r → succ? r t = some p →
      ∀ q ∈ r, t ≤ q.1 → p.1 ≤ q.1 := by
  intro r
  induction r with
  | nil => intro _ h; simp [succ?] at h
  | cons a r ih =>
    intro hs h q hq hle
    obtain ⟨ha, hs'⟩ := List.pairwise_cons.mp hs
    rw [succ?] at h
    by_cases hat : t ≤ a.1
    · rw [if_pos hat, Option.some.injEq] at h
      subst h
      rcases List.mem_cons.mp hq with rfl | hmem
      · exact le_refl _
      · exact (ha q hmem).le
    · rw [if_neg hat] at h
      rcases List.mem_cons.mp hq with rfl | hmem
      · exact absurd hle hat
      · exact ih hs' h q hmem hle

lemma pred?_spec {t : ℝ} {p : ℝ × Target} :
    ∀ {r : Ring}, pred? r t = some p → p ∈ r ∧ p.1 < t := by
  intro r
  induction r with
  | nil => intro h; simp [pred?] at h
  | cons a r ih =>
    intro h
    rw [pred?] at h
    cases hpr : pred? r t with
    | some q =>
      rw [hpr, Option.some.injEq] at h
      subst h
      obtain ⟨hm, hlt⟩ := ih hpr
      exact ⟨List.mem_cons_of_mem _ hm, hlt⟩
    | none =>
      rw [hpr] at h
      by_cases hat : a.1 < t
      · rw [if_pos hat, Option.some.injEq] at h
        subst h
        exact ⟨List.mem_cons_self _ _, hat⟩
      · rw [if_neg hat] at h
        exact absurd h (by simp)

lemma pred?_eq_none {t : ℝ} : ∀ {r : Ring}, (pred? r t = none ↔ ∀ p ∈ r, t ≤ p.1) := by
  intro r
  induction r with
  | nil => simp [pred?]
  | cons a r ih =>
    rw [pred?]
    cases hpr : pred? r t with
    | some q =>
      obtain ⟨hm, hlt⟩ := pred?_spec hpr
      simp only [List.forall_mem_cons]
      constructor
      · intro hc
        exact absurd hc (by simp)
      · rintro ⟨-, hall⟩
        exact absurd (hall q hm) (not_le.mpr hlt)
    | none =>
      by_cases hat : a.1 < t
      · rw [if_pos hat]
        simp only [List.forall_mem_cons]
        constructor
        · intro hc
          exact absurd hc (by simp)
        · rintro ⟨h1, -⟩
          linarith
      · rw [if_neg hat]
        simp only [List.forall_mem_cons]
        constructor
        · intro _
          exact ⟨not_lt.mp hat, ih.mp hpr⟩
        · intro _
          trivial

lemma pred?_max {t : ℝ} {p : ℝ × Target} :
    ∀ {r : Ring}, sortedRing r → pred? r t = some p →
      ∀ q ∈ r, q.1 < t → q.1 ≤ p.1 := by
  intro r
  induction r with
  | nil => intro _ h; simp [pred?] at h
  | cons a r ih =>
    intro hs h q hq hlt
    obtain ⟨ha, hs'⟩ := List.pairwise_cons.mp hs
    rw [pred?] at h
    cases hpr : pred? r t with
    | some q' =>
      rw [hpr, Option.some.injEq] at h
      rw [h] at hpr
      obtain ⟨hm, -⟩ := pred?_spec hpr
      rcases List.mem_cons.mp hq with rfl | hmem
      · exact (ha p hm).le
      · exact ih hs' hpr q hmem hlt
    | none =>
      rw [hpr] at h
      by_cases hat : a.1 < t
      · rw [if_pos hat, Option.some.injEq] at h
        subst h
        rcases List.mem_cons.mp hq with rfl | hmem
        · exact le_refl _
        · exact absurd hlt (not_lt.mpr (pred?_eq_none.mp hpr q hmem))
      · rw [if_neg hat] at h
        exact absurd h (by simp)

lemma head?_least {r : Ring} (hs : sortedRing r) {p : ℝ × Target}
    (h : r.head? = some p) : ∀ q ∈ r, p.1 ≤ q.1 := by
  cases r with
  | nil => simp at h
  | cons a r =>
    rw [List.head?_cons, Option.some.injEq] at h
    subst h
    obtain ⟨ha, -⟩ := List.pairwise_cons.mp hs
    intro q hq
    rcases List.mem_cons.mp hq with rfl | hmem
    · exact le_refl _
    · exact (ha q hmem).le

lemma getLast?_greatest {p : ℝ × Target} :
    ∀ {r : Ring}, sortedRing r → r.getLast? = some p → ∀ q ∈ r, q.1 ≤ p.1 := by
  intro r
  induction r with
  | nil => intro _ h; simp at h
  | cons a r ih =>
    intro hs h q hq
    obtain ⟨ha, hs'⟩ := List.pairwise_cons.mp hs
    cases r with
    | nil =>
      simp only [List.getLast?_singleton, Option.some.injEq] at h
      subst h
      rcases List.mem_cons.mp hq with rfl | hmem
      · exact le_refl _
      · exact absurd hmem (List.not_mem_nil q)
    | cons b r' =>
      rw [List.getLast?_cons_cons] at h
      have hpmem : p ∈ b :: r' := List.mem_of_getLast?_eq_some h
      rcases List.mem_cons.mp hq with rfl | hmem
      · exact (ha p hpmem).le
      · exact ih hs' h q hmem

/-! ### `BTreeMap::insert` model -/

lemma keys_btreeInsert {k : ℝ} {v : Target} :
    ∀ {r : Ring} {x : ℝ}, (x ∈ keys (btreeInsert r k v) ↔ x = k ∨ x ∈ keys r) := by
  intro r
  induction r with
  | nil => intro x; simp [btreeInsert, keys]
  | cons p r ih =>
    intro x
    rw [btreeInsert]
    by_cases h1 : k < p.1
    · rw [if_pos h1]
      simp only [keys, List.map_cons, List.mem_cons]
    · rw [if_neg h1]
      by_cases h2 : p.1 < k
      · rw [if_pos h2]
        simp only [keys, List.map_cons, List.mem_cons] at ih ⊢
        rw [ih]
        tauto
      · rw [if_neg h2]
        have hk : p.1 = k := le_antisymm (not_lt.mp h1) (not_lt.mp h2)
        simp only [keys, List.map_cons, List.mem_cons, hk]
        tauto

lemma sortedRing_btreeInsert {k : ℝ} {v : Target} :
    ∀ {r : Ring}, sortedRing r → sortedRing (btreeInsert r k v) := by
  intro r
  induction r with
  | nil => intro _; simp [btreeInsert, sortedRing]
  | cons p r ih =>
    intro hs
    obtain ⟨hp, hs'⟩ := List.pairwise_cons.mp hs
    rw [btreeInsert]
    by_cases h1 : k < p.1
    · rw [if_pos h1]
      refine List.pairwise_cons.mpr ⟨?_, hs⟩
      intro q hq
      rcases List.mem_cons.mp hq with rfl | hmem
      · exact h1
      · exact h1.trans (hp q hmem)
    · rw [if_neg h1]
      by_cases h2 : p.1 < k
      · rw [if_pos h2]
        refine List.pairwise_cons.mpr ⟨?_, ih hs'⟩
        intro q hq
        have : q.1 ∈ keys (btreeInsert r k v) := List.mem_map_of_mem Prod.fst hq
        rcases keys_btreeInsert.mp this with heq | hmem
        · rw [heq]
          exact h2
        · obtain ⟨q', hq', hq'1⟩ := mem_keys.mp hmem
          rw [← hq'1]
          exact hp q' hq'
      · rw [if_neg h2]
        exact List.pairwise_cons.mpr ⟨hp, hs'⟩

lemma values_btreeInsert {k : ℝ} {v : Target} :
    ∀ {r : Ring}, k ∉ keys r →
      ((btreeInsert r k v).map Prod.snd).Perm (v :: r.map Prod.snd) := by
  intro r
  induction r with
  | nil => intro _; simp [btreeInsert]
  | cons p r ih =>
    intro hk
    simp only [keys, List.map_cons, List.mem_cons] at hk
    push_neg at hk
    obtain ⟨hk1, hk2⟩ := hk
    rw [btreeInsert]
    by_cases h1 : k < p.1
    · rw [if_pos h1]
      exact List.Perm.refl _
    · rw [if_neg h1]
      by_cases h2 : p.1 < k
      · rw [if_pos h2]
        rw [List.map_cons]
        exact ((ih hk2).cons p.2).trans (List.Perm.swap v p.2 _)
      · rw [if_neg h2]
        exact absurd (le_antisymm (not_lt.mp h2) (not_lt.mp h1)) hk1

/-! ### The conflict test -/

lemma succ?_of_mem_keys {r : Ring} {t : ℝ} (hs : sortedRing r) (hmem : t ∈ keys r) :
    ∃ p, succ? r t = some p ∧ p.1 = t := by
  obtain ⟨q, hq, hqt⟩ := mem_keys.mp hmem
  have hnone : succ? r t ≠ none := by
    intro h
    have := succ?_eq_none.mp h q hq
    rw [hqt] at this
    exact absurd this (lt_irrefl t)
  obtain ⟨p, hp⟩ := Option.ne_none_iff_exists'.mp hnone
  refine ⟨p, hp, ?_⟩
  obtain ⟨-, hpt⟩ := succ?_spec hp
  have hmin := succ?_min hs hp q hq (le_of_eq hqt.symm)
  rw [hqt] at hmin
  exact le_antisymm hmin hpt

lemma hasConflict_of_mem_keys {r : Ring} {t m : ℝ} (hs : sortedRing r)
    (hm : 0 < m) (hmem : t ∈ keys r) : hasConflict r t m := by
  obtain ⟨p, hp, hpt⟩ := succ?_of_mem_keys hs hmem
  constructor
  · intro hr
    rw [hr] at hmem
    exact absurd hmem (by simp [keys])
  · left
    simp only [succConflict, hp]
    simpa [hpt] using hm

lemma fresh_key_of_no_conflict {r : Ring} {t m : ℝ} (hs : sortedRing r) (hm : 0 < m)
    (hnc : ¬ hasConflict r t m) : t ∉ keys r :=
  fun hmem => hnc (hasConflict_of_mem_keys hs hm hmem)

/-- Core preservation step: inserting a target whose azimuth raised no
conflict keeps the ring sorted and keeps the pairwise no-overlap property. -/
lemma btreeInsert_keeps_noOverlap {r : Ring} {t m : ℝ} {v : Target}
    (hm : 0 < m) (hs : sortedRing r) (hinv : noOverlap m r)
    (hnc : ¬ hasConflict r t m) :
    sortedRing (btreeInsert r t v) ∧ noOverlap m (btreeInsert r t v) := by
  refine ⟨sortedRing_btreeInsert hs, ?_⟩
  rcases eq_or_ne r [] with rfl | hne
  · intro x hx y hy hxy
    simp only [btreeInsert, keys, List.map_cons, List.map_nil, List.mem_singleton] at hx hy
    rw [hx, hy] at hxy
    exact absurd hxy (lt_irrefl t)
  · have hfresh : t ∉ keys r := fresh_key_of_no_conflict hs hm hnc
    have hnc2 : ¬ succConflict r t m ∧ ¬ predConflict r t m := by
      rw [hasConflict] at hnc
      push_neg at hnc
      exact hnc hne
    obtain ⟨hncS, hncP⟩ := hnc2
    obtain ⟨hd, hhd⟩ : ∃ p, r.head? = some p := by
      cases r with
      | nil => exact absurd rfl hne
      | cons a r => exact ⟨a, rfl⟩
    obtain ⟨lst, hlst⟩ : ∃ p, r.getLast? = some p := by
      cases hl : r.getLast? with
      | none => exact absurd (List.getLast?_eq_none_iff.mp hl) hne
      | some p => exact ⟨p, rfl⟩
    have hhd_le : ∀ q ∈ r, hd.1 ≤ q.1 := head?_least hs hhd
    have hlst_ge : ∀ q ∈ r, q.1 ≤ lst.1 := getLast?_greatest hs hlst
    have hhd_mem : hd ∈ r := List.mem_of_mem_head? (Option.mem_def.mpr hhd)
    have hlst_mem : lst ∈ r := List.mem_of_getLast?_eq_some hlst
    intro x hx y hy hxy
    rcases keys_btreeInsert.mp hx with hxt | hxr
    · subst hxt
      rcases keys_btreeInsert.mp hy with hyt | hyr
      · rw [hyt] at hxy
        exact absurd hxy (lt_irrefl x)
      · -- here x is the new key and y is a stored key, x < y
        obtain ⟨qy, hqy, hqy1⟩ := mem_keys.mp hyr
        have hsnone : succ? r x ≠ none := by
          intro h
          have := succ?_eq_none.mp h qy hqy
          rw [hqy1] at this
          linarith
        obtain ⟨p, hp⟩ := Option.ne_none_iff_exists'.mp hsnone
        obtain ⟨hpmem, hpt⟩ := succ?_spec hp
        have hpmin : p.1 ≤ y := by
          have := succ?_min hs hp qy hqy (by rw [hqy1]; exact hxy.le)
          rwa [hqy1] at this
        have hS : m ≤ p.1 - x := by
          by_contra hlt
          push_neg at hlt
          exact hncS (by simp only [succConflict, hp]; exact hlt)
        refine ⟨by linarith, ?_⟩
        have hylst : y ≤ lst.1 := by
          rw [← hqy1]
          exact hlst_ge qy hqy
        cases hpred : pred? r x with
        | some pq =>
          obtain ⟨hpqmem, hpqt⟩ := pred?_spec hpred
          have hlt2 : pq.1 < lst.1 := by linarith
          have hpair := (hinv pq.1 (mem_keys.mpr ⟨pq, hpqmem, rfl⟩) lst.1
            (mem_keys.mpr ⟨lst, hlst_mem, rfl⟩) hlt2).2
          linarith
        | none =>
          have hP : m ≤ x + TWO_PI - lst.1 := by
            by_contra hlt
            push_neg at hlt
            exact hncP (by simp only [predConflict, hpred, hlst]; exact hlt)
          linarith
    · rcases keys_btreeInsert.mp hy with hyt | hyr
      · -- here y is the new key and x is a stored key, x < y
        subst hyt
        obtain ⟨qx, hqx, hqx1⟩ := mem_keys.mp hxr
        have hpnone : pred? r y ≠ none := by
          intro h
          have := pred?_eq_none.mp h qx hqx
          rw [hqx1] at this
          linarith
        obtain ⟨p, hp⟩ := Option.ne_none_iff_exists'.mp hpnone
        obtain ⟨hpmem, hpt⟩ := pred?_spec hp
        have hpmax : x ≤ p.1 := by
          have := pred?_max hs hp qx hqx (by rw [hqx1]; exact hxy)
          rwa [hqx1] at this
        have hP : m ≤ y - p.1 := by
          by_contra hlt
          push_neg at hlt
          exact hncP (by simp only [predConflict, hp]; exact hlt)
        refine ⟨by linarith, ?_⟩
        have hxhd : hd.1 ≤ x := by
          rw [← hqx1]
          exact hhd_le qx hqx
        cases hsucc : succ? r y with
        | some ps =>
          obtain ⟨hpsmem, hpst⟩ := succ?_spec hsucc
          have hst : y < ps.1 :=
            lt_of_le_of_ne hpst fun he => hfresh (mem_keys.mpr ⟨ps, hpsmem, he.symm⟩)
          have hlt2 : hd.1 < ps.1 := by linarith
          have hpair := (hinv hd.1 (mem_keys.mpr ⟨hd, hhd_mem, rfl⟩) ps.1
            (mem_keys.mpr ⟨ps, hpsmem, rfl⟩) hlt2).2
          linarith
        | none =>
          have hS2 : m ≤ hd.1 + TWO_PI - y := by
            by_contra hlt
            push_neg at hlt
            exact hncS (by simp only [succConflict, hsucc, hhd]; exact hlt)
          linarith
      · exact hinv x hxr y hyr hxy

/-- Witness for C10 at `poi_width = 1`, ring 0. -/
theorem min_angle_asin_domain_witness :
    (0 : ℝ) < 1 ∧
    ((1 : ℝ) * FRAC_1_SQRT_2 / ring_radius 1 0
        = 1 / (2 * Real.sqrt 2 * (((0 : ℕ) : ℝ) + 1)) ∧
      (1 : ℝ) * FRAC_1_SQRT_2 / ring_radius 1 0 ≤ 1 / (2 * Real.sqrt 2) ∧
      (1 : ℝ) * FRAC_1_SQRT_2 / ring_radius 1 0 < 1 ∧
      0 < min_angle 1 0) :=
  ⟨by norm_num, min_angle_asin_domain 1 (by norm_num) 0⟩

/-! ### The placement loop -/

lemma ringsInv_cons {minAzi : ℕ → ℝ} {i : ℕ} {r : Ring} {rs : List Ring} :
    ringsInv minAzi i (r :: rs) ↔
      (sortedRing r ∧ noOverlap (minAzi i) r) ∧ ringsInv minAzi (i + 1) rs :=
  Iff.rfl

lemma allMembers_cons {r : Ring} {rs : List Ring} :
    allMembers (r :: rs) = r.map Prod.snd ++ allMembers rs := by
  simp [allMembers]

lemma singleton_ring_inv {minAzi : ℕ → ℝ} {i : ℕ} {t : Target} :
    ringsInv minAzi i [[(t.azimuth, t)]] := by
  refine ringsInv_cons.mpr ⟨⟨?_, ?_⟩, trivial⟩
  · simp [sortedRing]
  · intro x hx y hy hxy
    simp [keys] at hx hy
    rw [hx, hy] at hxy
    exact absurd hxy (lt_irrefl _)

/-- One run of the placement loop preserves the per-ring invariant and adds
exactly the placed target to the stored members. -/
lemma place_main {minAzi : ℕ → ℝ} (hm : ∀ j, 0 < minAzi j) (t : Target) :
    ∀ (rs : List Ring) (i : ℕ), ringsInv minAzi i rs →
      ringsInv minAzi i (place minAzi t i rs) ∧
      (allMembers (place minAzi t i rs)).Perm (t :: allMembers rs) := by
  intro rs
  induction rs with
  | nil =>
    intro i _
    constructor
    · simp only [place, btreeInsert]
      exact singleton_ring_inv
    · simp [place, btreeInsert, allMembers]
  | cons r rest ih =>
    intro i hinv
    obtain ⟨⟨hsr, hno⟩, hrest⟩ := ringsInv_cons.mp hinv
    by_cases hc : hasConflict r t.azimuth (minAzi i)
    · obtain ⟨ih1, ih2⟩ := ih (i + 1) hrest
      simp only [place, if_pos hc]
      refine ⟨ringsInv_cons.mpr ⟨⟨hsr, hno⟩, ih1⟩, ?_⟩
      rw [allMembers_cons, allMembers_cons]
      exact (List.Perm.append_left (r.map Prod.snd) ih2).trans List.perm_middle
    · simp only [place, if_neg hc]
      obtain ⟨hs2, hno2⟩ := btreeInsert_keeps_noOverlap (hm i) hsr hno hc
      have hfresh : t.azimuth ∉ keys r := fresh_key_of_no_conflict hsr (hm i) hc
      refine ⟨ringsInv_cons.mpr ⟨⟨hs2, hno2⟩, hrest⟩, ?_⟩
      rw [allMembers_cons, allMembers_cons, ← List.cons_append]
      exact List.Perm.append_right _ (values_btreeInsert hfresh)

lemma ringsInv_getElem {minAzi : ℕ → ℝ} :
    ∀ {rs : List Ring} (i₀ j : ℕ) (r : Ring), ringsInv minAzi i₀ rs →
      rs[j]? = some r → sortedRing r ∧ noOverlap (minAzi (i₀ + j)) r := by
  intro rs
  induction rs with
  | nil =>
    intro i₀ j r _ h
    simp at h
  | cons r0 rest ih =>
    intro i₀ j r hinv h
    obtain ⟨⟨hs, hno⟩, hrest⟩ := ringsInv_cons.mp hinv
    cases j with
    | zero =>
      simp only [List.getElem?_cons_zero, Option.some.injEq] at h
      subst h
      rw [Nat.add_zero]
      exact ⟨hs, hno⟩
    | succ j' =>
      rw [List.getElem?_cons_succ] at h
      have hrec := ih (i₀ + 1) j' r hrest h
      rwa [show i₀ + 1 + j' = i₀ + (j' + 1) by omega] at hrec

lemma ringsInv_sorted_mem {minAzi : ℕ → ℝ} :
    ∀ {rs : List Ring} (i₀ : ℕ), ringsInv minAzi i₀ rs → ∀ r ∈ rs, sortedRing r := by
  intro rs
  induction rs with
  | nil =>
    intro _ _ r h
    exact absurd h (List.not_mem_nil r)
  | cons r0 rest ih =>
    intro i₀ hinv r h
    obtain ⟨⟨hs, -⟩, hrest⟩ := ringsInv_cons.mp hinv
    rcases List.mem_cons.mp h with rfl | hmem
    · exact hs
    · exact ih (i₀ + 1) hrest r hmem

lemma sortedRing_key_inj : ∀ {r : Ring}, sortedRing r →
    ∀ p ∈ r, ∀ q ∈ r, p.1 = q.1 → p = q := by
  intro r
  induction r with
  | nil =>
    intro _ p h
    exact absurd h (List.not_mem_nil p)
  | cons a rest ih =>
    intro hs p hp q hq heq
    obtain ⟨ha, hs2⟩ := List.pairwise_cons.mp hs
    rcases List.mem_cons.mp hp with rfl | hp2
    · rcases List.mem_cons.mp hq with rfl | hq2
      · rfl
      · exfalso
        have h3 := ha q hq2
        linarith
    · rcases List.mem_cons.mp hq with rfl | hq2
      · exfalso
        have h3 := ha p hp2
        linarith
      · exact ih hs2 p hp2 q hq2 heq

/-- The whole fold of `arrange_targets` over an input list, from any invariant
accumulator: the invariant is preserved and the final members are exactly the
processed targets plus the accumulator members. -/
lemma arrange_core {minAzi : ℕ → ℝ} (hm : ∀ j, 0 < minAzi j) :
    ∀ (ts : List Target) (acc : List Ring), ringsInv minAzi 0 acc →
      ringsInv minAzi 0 (ts.foldl (fun rings t => place minAzi t 0 rings) acc) ∧
      (allMembers (ts.foldl (fun rings t => place minAzi t 0 rings) acc)).Perm
        (ts ++ allMembers acc) := by
  intro ts
  induction ts with
  | nil =>
    intro acc h
    exact ⟨h, by simp⟩
  | cons t ts ih =>
    intro acc h
    simp only [List.foldl_cons]
    obtain ⟨h1, h2⟩ := place_main hm t acc 0 h
    obtain ⟨ih1, ih2⟩ := ih (place minAzi t 0 acc) h1
    refine ⟨ih1, ih2.trans ?_⟩
    rw [List.cons_append]
    exact (List.Perm.append_left ts h2).trans List.perm_middle

/-- Specialization to `arrange_targets` itself. -/
lemma arrange_targets_inv (targets : List Target) (poi_width : ℝ)
    (hw : 0 < poi_width) :
    ringsInv (min_angle poi_width) 0 (arrange_targets targets poi_width) ∧
    (allMembers (arrange_targets targets poi_width)).Perm targets := by
  have h := arrange_core (min_angle_pos poi_width hw) targets [] trivial
  rw [arrange_targets]
  refine ⟨h.1, ?_⟩
  have h2 := h.2
  simpa [allMembers] using h2

lemma place_length {minAzi : ℕ → ℝ} (t : Target) :
    ∀ (rs : List Ring) (i : ℕ), (place minAzi t i rs).length ≤ rs.length + 1 := by
  intro rs
  induction rs with
  | nil =>
    intro i
    simp [place]
  | cons r rest ih =>
    intro i
    by_cases hc : hasConflict r t.azimuth (minAzi i)
    · simp only [place, if_pos hc, List.length_cons]
      have := ih (i + 1)
      omega
    · simp only [place, if_neg hc, List.length_cons]
      omega

/-- Enough fuel: `rs.length + 1` loop iterations always suffice. -/
lemma placeN_complete {minAzi : ℕ → ℝ} (t : Target) :
    ∀ (rs : List Ring) (fuel i : ℕ), rs.length < fuel →
      placeN minAzi t fuel i rs = some (place minAzi t i rs) := by
  intro rs
  induction rs with
  | nil =>
    intro fuel i hf
    cases fuel with
    | zero => simp at hf
    | succ f => simp [placeN, place]
  | cons r rest ih =>
    intro fuel i hf
    cases fuel with
    | zero => simp at hf
    | succ f =>
      by_cases hc : hasConflict r t.azimuth (minAzi i)
      · simp only [placeN, place, if_pos hc]
        rw [ih f (i + 1) (by simp only [List.length_cons] at hf; omega)]
        rfl
      · simp only [placeN, place, if_neg hc]

lemma foldl_place_length {minAzi : ℕ → ℝ} :
    ∀ (ts : List Target) (acc : List Ring),
      (ts.foldl (fun rings t => place minAzi t 0 rings) acc).length
        ≤ acc.length + ts.length := by
  intro ts
  induction ts with
  | nil =>
    intro acc
    simp
  | cons t ts ih =>
    intro acc
    simp only [List.foldl_cons, List.length_cons]
    have h1 := ih (place minAzi t 0 acc)
    have h2 := @place_length minAzi t acc 0
    omega

/-! ### A concrete run: two targets at azimuths 0 and pi share ring 0 -/

lemma min_angle_thirty : min_angle 30 0 ≤ 2 * Real.pi / 5 := by
  have harg : (30 : ℝ) * FRAC_1_SQRT_2 / ring_radius 30 0 = FRAC_1_SQRT_2 / 2 := by
    rw [asin_arg_eq 30 (by norm_num) 0]
    norm_num
  rw [min_angle, harg]
  have h1 : Real.arcsin (FRAC_1_SQRT_2 / 2) ≤ Real.arcsin (1 / 2) := by
    apply Real.strictMonoOn_arcsin.monotoneOn
    · constructor
      · have := frac_1_sqrt_2_pos
        linarith
      · have := frac_1_sqrt_2_lt_one
        linarith
    · constructor <;> norm_num
    · have := frac_1_sqrt_2_lt_one
      linarith
  have h2 : Real.arcsin (1 / 2) = Real.pi / 6 := by
    rw [show (1 / 2 : ℝ) = Real.sin (Real.pi / 6) from Real.sin_pi_div_six.symm]
    exact Real.arcsin_sin (by linarith [Real.pi_pos]) (by linarith [Real.pi_pos])
  rw [h2] at h1
  have h12 : SCATTER_COEF = 1.2 := rfl
  rw [h12]
  nlinarith

lemma arrange_two_eq :
    arrange_targets [tgtA, tgtB] 30 = [[((0 : ℝ), tgtA), (Real.pi, tgtB)]] := by
  have hm0 : min_angle 30 0 < Real.pi := by
    have h1 := min_angle_thirty
    have hpi := Real.pi_pos
    linarith
  have hA : tgtA.azimuth = (0 : ℝ) := rfl
  have hB : tgtB.azimuth = Real.pi := rfl
  have h1 : place (min_angle 30) tgtA 0 [] = [[((0 : ℝ), tgtA)]] := by
    simp [place, btreeInsert, hA]
  have hnc : ¬ hasConflict [((0 : ℝ), tgtA)] Real.pi (min_angle 30 0) := by
    rintro ⟨-, hor⟩
    have hsnone : succ? [((0 : ℝ), tgtA)] Real.pi = none := by
      rw [succ?, if_neg (not_le.mpr Real.pi_pos)]
      rfl
    have hpred : pred? [((0 : ℝ), tgtA)] Real.pi = some ((0 : ℝ), tgtA) := by
      rw [pred?]
      simp only [pred?]
      rw [if_pos Real.pi_pos]
    rcases hor with hS | hP
    · simp only [succConflict, hsnone, List.head?_cons] at hS
      rw [TWO_PI] at hS
      linarith
    · simp only [predConflict, hpred] at hP
      linarith
  have h2 : place (min_angle 30) tgtB 0 [[((0 : ℝ), tgtA)]]
      = [[((0 : ℝ), tgtA), (Real.pi, tgtB)]] := by
    have hnc' : ¬ hasConflict [((0 : ℝ), tgtA)] tgtB.azimuth (min_angle 30 0) := hnc
    have hng : ¬ (Real.pi < (0 : ℝ)) := not_lt.mpr Real.pi_pos.le
    simp only [place, if_neg hnc']
    rw [hB]
    simp [btreeInsert, hng, Real.pi_pos]
  simp only [arrange_targets, List.foldl_cons, List.foldl_nil]
  rw [h1, h2]

/-- C1.  No-overlap invariant of `arrange_targets`: for every input (hence in
particular for any prefix of a larger input, whose processing is exactly the
run on that prefix) and every ring of the output, two distinct member
azimuths are separated by at least the ring's minimum angle, both along the
direct gap and through the `0 / 2π` wrap-around (`circDist` takes the minimum
of the two). -/
theorem arrange_targets_no_overlap (targets : List Target) (poi_width : ℝ)
    (hw : 0 < poi_width) (i : ℕ) (r : Ring)
    (hr : (arrange_targets targets poi_width)[i]? = some r)
    (x y : ℝ) (hx : x ∈ keys r) (hy : y ∈ keys r) (hxy : x ≠ y) :
    min_angle poi_width i ≤ circDist x y := by
  have hinv := (arrange_targets_inv targets poi_width hw).1
  have hno := (ringsInv_getElem 0 i r hinv hr).2
  rw [Nat.zero_add] at hno
  rcases lt_or_gt_of_ne hxy with h | h
  · obtain ⟨h1, h2⟩ := hno x hx y hy h
    rw [circDist]
    have habs : |x - y| = y - x := by
      rw [abs_sub_comm]
      exact abs_of_pos (by linarith)
    rw [habs]
    exact le_min h1 (by linarith)
  · obtain ⟨h1, h2⟩ := hno y hy x hx h
    rw [circDist]
    have habs : |x - y| = x - y := abs_of_pos (by linarith)
    rw [habs]
    exact le_min h1 (by linarith)

/-- Witness for C1: two targets at azimuths `0` and `π` land together on
ring 0 and satisfy the separation bound there. -/
theorem arrange_targets_no_overlap_witness :
    (0 : ℝ) < 30 ∧
    (arrange_targets [tgtA, tgtB] 30)[0]? = some [((0 : ℝ), tgtA), (Real.pi, tgtB)] ∧
    (0 : ℝ) ∈ keys [((0 : ℝ), tgtA), (Real.pi, tgtB)] ∧
    Real.pi ∈ keys [((0 : ℝ), tgtA), (Real.pi, tgtB)] ∧
    (0 : ℝ) ≠ Real.pi ∧
    min_angle 30 0 ≤ circDist 0 Real.pi := by
  have h30 : (0 : ℝ) < 30 := by norm_num
  have hr : (arrange_targets [tgtA, tgtB] 30)[0]?
      = some [((0 : ℝ), tgtA), (Real.pi, tgtB)] := by
    rw [arrange_two_eq]
    rfl
  have hx : (0 : ℝ) ∈ keys [((0 : ℝ), tgtA), (Real.pi, tgtB)] := by simp [keys]
  have hy : Real.pi ∈ keys [((0 : ℝ), tgtA), (Real.pi, tgtB)] := by simp [keys]
  have hxy : (0 : ℝ) ≠ Real.pi := ne_of_lt Real.pi_pos
  exact ⟨h30, hr, hx, hy, hxy,
    arrange_targets_no_overlap [tgtA, tgtB] 30 h30 0 _ hr 0 Real.pi hx hy hxy⟩

/-- C3.  Conservation: for a positive width, the members of all output rings
together are a permutation of the input targets — every input POI is stored
exactly as often as it was given, none is dropped and none is duplicated
across rings. -/
theorem arrange_targets_conservation (targets : List Target) (poi_width : ℝ)
    (hw : 0 < poi_width) :
    (allMembers (arrange_targets targets poi_width)).Perm targets :=
  (arrange_targets_inv targets poi_width hw).2

/-- Witness for C3 at a one-target input. -/
theorem arrange_targets_conservation_witness :
    (0 : ℝ) < 1 ∧ (allMembers (arrange_targets [tgtA] 1)).Perm [tgtA] :=
  ⟨by norm_num, arrange_targets_conservation [tgtA] 1 (by norm_num)⟩

/-- C2.  Wrap-around correctness of the conflict test: with no successor the
code compares `smallest + 2π - t` and with no predecessor it compares
`t + 2π - largest`; consequently a stored azimuth `2π - 1/100` and a
candidate `1/100` (in either role) conflict exactly when the separation
angle exceeds their wrap-around distance `1/50`, not their direct distance
`2π - 1/50`. -/
theorem wraparound_conflict (r : Ring) (t m : ℝ) (v : Target) (_hne : r ≠ []) :
    (succ? r t = none → ∀ p ∈ r.head?, (succConflict r t m ↔ p.1 + TWO_PI - t < m)) ∧
    (pred? r t = none → ∀ p ∈ r.getLast?, (predConflict r t m ↔ t + TWO_PI - p.1 < m)) ∧
    (0 < m → m ≤ TWO_PI - 1 / 50 →
      ((hasConflict [(TWO_PI - 1 / 100, v)] (1 / 100) m ↔ 1 / 50 < m) ∧
        (hasConflict [(1 / 100, v)] (TWO_PI - 1 / 100) m ↔ 1 / 50 < m))) := by
  have h2pi : (1 : ℝ) / 50 < TWO_PI := by
    rw [TWO_PI]
    nlinarith [Real.pi_gt_three]
  refine ⟨?_, ?_, ?_⟩
  · intro hnone p hp
    rw [Option.mem_def] at hp
    simp only [succConflict, hnone, hp]
  · intro hnone p hp
    rw [Option.mem_def] at hp
    simp only [predConflict, hnone, hp]
  · intro hm hm2
    have hta : (1 : ℝ) / 100 ≤ TWO_PI - 1 / 100 := by linarith
    constructor
    · have hsucc : succ? [((TWO_PI - 1 / 100 : ℝ), v)] (1 / 100)
          = some (TWO_PI - 1 / 100, v) := by
        rw [succ?, if_pos hta]
      have hpred : pred? [((TWO_PI - 1 / 100 : ℝ), v)] (1 / 100) = none := by
        rw [pred?]
        simp only [pred?]
        rw [if_neg (not_lt.mpr hta)]
      constructor
      · rintro ⟨-, hS | hP⟩
        · simp only [succConflict, hsucc] at hS
          linarith
        · simp only [predConflict, hpred, List.getLast?_singleton] at hP
          linarith
      · intro h
        refine ⟨by simp, Or.inr ?_⟩
        simp only [predConflict, hpred, List.getLast?_singleton]
        linarith
    · have hsucc : succ? [((1 : ℝ) / 100, v)] (TWO_PI - 1 / 100) = none := by
        rw [succ?, if_neg (not_le.mpr (by linarith))]
        rfl
      have hpred : pred? [((1 : ℝ) / 100, v)] (TWO_PI - 1 / 100)
          = some (1 / 100, v) := by
        rw [pred?]
        simp only [pred?]
        rw [if_pos (show (1 : ℝ) / 100 < TWO_PI - 1 / 100 by linarith)]
      constructor
      · rintro ⟨-, hS | hP⟩
        · simp only [succConflict, hsucc, List.head?_cons] at hS
          linarith
        · simp only [predConflict, hpred] at hP
          linarith
      · intro h
        refine ⟨by simp, Or.inl ?_⟩
        simp only [succConflict, hsucc, List.head?_cons]
        linarith

/-- Witness for C2: a stored azimuth `2π - 1/100` and a candidate `1/100`
conflict for separation angle `1`, because their wrap-around distance `1/50`
is below it. -/
theorem wraparound_conflict_witness :
    hasConflict [((TWO_PI - 1 / 100 : ℝ), tgtA)] (1 / 100) 1 := by
  have h1 : (1 : ℝ) ≤ TWO_PI - 1 / 50 := by
    rw [TWO_PI]
    nlinarith [Real.pi_gt_three]
  exact ((wraparound_conflict [((TWO_PI - 1 / 100 : ℝ), tgtA)] (1 / 100) 1 tgtA
    (by simp)).2.2 one_pos h1).1.mpr (by norm_num)

/-- C8.  Duplicate azimuths: an azimuth already stored on a ring is found by
the successor lookup at distance 0, which always conflicts for a positive
separation angle, so the candidate overflows to a later ring; a no-conflict
insertion therefore never hits an existing key (the `BTreeMap` insert never
overwrites), and no output ring of `arrange_targets` holds two distinct
entries with the same azimuth. -/
theorem duplicate_azimuth_overflow (r : Ring) (t m : ℝ) (hs : sortedRing r)
    (hmem : t ∈ keys r) (hm : 0 < m) :
    (∃ p, succ? r t = some p ∧ p.1 = t) ∧
    hasConflict r t m ∧
    (∀ (r' : Ring) (t' m' : ℝ), sortedRing r' → 0 < m' → ¬ hasConflict r' t' m' →
      t' ∉ keys r') ∧
    (∀ (targets : List Target) (poi_width : ℝ), 0 < poi_width →
      ∀ ring ∈ arrange_targets targets poi_width, ∀ p ∈ ring, ∀ q ∈ ring,
        p.1 = q.1 → p = q) := by
  refine ⟨succ?_of_mem_keys hs hmem, hasConflict_of_mem_keys hs hm hmem, ?_, ?_⟩
  · intro r' t' m' hs' hm' hnc
    exact fresh_key_of_no_conflict hs' hm' hnc
  · intro targets poi_width hw ring hring p hp q hq heq
    have hinv := (arrange_targets_inv targets poi_width hw).1
    have hsr : sortedRing ring := ringsInv_sorted_mem 0 hinv ring hring
    exact sortedRing_key_inj hsr p hp q hq heq

/-- Witness for C8: a ring holding azimuth `1` conflicts with a second
candidate at the same azimuth `1` for separation angle `1`. -/
theorem duplicate_azimuth_overflow_witness :
    hasConflict [((1 : ℝ), tgtA)] 1 1 := by
  have hs : sortedRing [((1 : ℝ), tgtA)] := by simp [sortedRing]
  have hmem : (1 : ℝ) ∈ keys [((1 : ℝ), tgtA)] := by simp [keys]
  exact (duplicate_azimuth_overflow [((1 : ℝ), tgtA)] 1 1 hs hmem one_pos).2.1

/-- C9.  Per-POI termination bound: with the rings existing when a POI is
processed, `rs.length + 1` loop iterations always suffice (the fuel-counted
loop returns the fuel-free result), one placement adds at most one ring, and
consequently the output of `arrange_targets` never has more rings than input
POIs. -/
theorem placement_loop_bound (minAzi : ℕ → ℝ) (t : Target) (i : ℕ) (rs : List Ring) :
    placeN minAzi t (rs.length + 1) i rs = some (place minAzi t i rs) ∧
    (place minAzi t i rs).length ≤ rs.length + 1 ∧
    ∀ (targets : List Target) (poi_width : ℝ),
      (arrange_targets targets poi_width).length ≤ targets.length := by
  refine ⟨placeN_complete t rs (rs.length + 1) i (Nat.lt_succ_self _),
    place_length t rs i, ?_⟩
  intro targets poi_width
  have h := @foldl_place_length (min_angle poi_width) targets []
  rw [arrange_targets]
  simpa using h

end SquareRing
